import Mathlib

/-!
Verification of the binary Matrix Market corpus codec
(`gensim/corpora/struct_corpus.py` and `gensim/corpora/python_array.py`).

The file format is byte-oriented: all integers are 4-byte native-endian
signed ints (`struct` format `'i'`, `array` typecode `'i'`) and all weights
are 4-byte IEEE-754 floats (`'f'`).  We model a stream as a `List Nat` of
bytes.  The codec never computes with an f32 weight, it only stores and
retrieves its 4 bytes, so a weight is modelled by its 32-bit pattern
(a `Nat < 2 ^ 32`).
-/

namespace MmBin

/-- A byte stream: the contents of a corpus file, one `Nat < 256` per byte. -/
abbrev Bytes := List Nat

/-- One decoded entry of a document: `(term_id, weight-pattern)`. -/
abbrev Entry := Int × Nat

/-- A decoded document as yielded by the readers: its list of entries. -/
abbrev Doc := List Entry

/-- Little-endian base-256 encoding of `m` into exactly `k` bytes
(the byte layout written by `struct.pack` / `array.tofile` on a
little-endian platform). -/
def toBytesLE : Nat → Nat → Bytes
  | 0, _ => []
  | k + 1, m => m % 256 :: toBytesLE k (m / 256)

/-- Little-endian base-256 value of a byte string. -/
def fromBytesLE : Bytes → Nat
  | [] => 0
  | b :: bs => b + 256 * fromBytesLE bs

theorem length_toBytesLE (k m : Nat) : (toBytesLE k m).length = k := by
  induction k generalizing m with
  | zero => rfl
  | succ k ih => simp [toBytesLE, ih]

theorem fromBytesLE_toBytesLE (k m : Nat) :
    fromBytesLE (toBytesLE k m) = m % 256 ^ k := by
  induction k generalizing m with
  | zero => simp [toBytesLE, fromBytesLE, Nat.mod_one]
  | succ k ih =>
    simp only [toBytesLE, fromBytesLE, ih]
    have h256 : (0:Nat) < 256 ^ k := Nat.pos_pow_of_pos k (by norm_num)
    have hq : m / 256 % 256 ^ k < 256 ^ k := Nat.mod_lt _ h256
    have hr : m % 256 < 256 := Nat.mod_lt _ (by norm_num)
    have hsplit : m = 256 * (m / 256) + m % 256 := (Nat.div_add_mod m 256).symm
    have hqsplit : m / 256 = 256 ^ k * (m / 256 / 256 ^ k) + m / 256 % 256 ^ k :=
      (Nat.div_add_mod _ _).symm
    have hpow : (256:Nat) ^ (k + 1) = 256 * 256 ^ k := by ring
    calc m % 256 + 256 * (m / 256 % 256 ^ k)
        = (m % 256 + 256 * (m / 256 % 256 ^ k)) % (256 * 256 ^ k) := by
          refine (Nat.mod_eq_of_lt ?_).symm
          have : m % 256 + 256 * (m / 256 % 256 ^ k) + 1 ≤ 256 + 256 * (256 ^ k - 1) := by
            omega
          omega
      _ = (m % 256 + 256 * (m / 256 % 256 ^ k) + 256 * 256 ^ k * (m / 256 / 256 ^ k))
            % (256 * 256 ^ k) := by
          rw [Nat.add_mul_mod_self_left]
      _ = m % (256 * 256 ^ k) := by
          congr 1
          calc m % 256 + 256 * (m / 256 % 256 ^ k) + 256 * 256 ^ k * (m / 256 / 256 ^ k)
              = m % 256 + 256 * (256 ^ k * (m / 256 / 256 ^ k) + m / 256 % 256 ^ k) := by
                ring
            _ = m % 256 + 256 * (m / 256) := by rw [← hqsplit]
            _ = m := by omega
      _ = m % 256 ^ (k + 1) := by rw [hpow]

/-- Total little-endian encoding of an `i32`: the 4 bytes of the value's
two's-complement representation (`n` reduced mod `2^32`). -/
def i32Bytes (n : Int) : Bytes := toBytesLE 4 (n % 2 ^ 32).toNat

/-- Decode 4 bytes as a native-endian signed 32-bit integer
(`struct.unpack('i', ...)` / `array('i')`). -/
def decInt32 (bs : Bytes) : Int :=
  let m := fromBytesLE bs
  if m < 2 ^ 31 then (m : Int) else (m : Int) - 2 ^ 32

/-- Reduction of an integer into the `i32` range, as a round trip through
4 bytes performs it. -/
def wrap32 (n : Int) : Int :=
  if n % 2 ^ 32 < 2 ^ 31 then n % 2 ^ 32 else n % 2 ^ 32 - 2 ^ 32

theorem length_i32Bytes (n : Int) : (i32Bytes n).length = 4 :=
  length_toBytesLE 4 _

theorem decInt32_i32Bytes (n : Int) : decInt32 (i32Bytes n) = wrap32 n := by
  have hmod : (0:Int) ≤ n % 2 ^ 32 := Int.emod_nonneg n (by norm_num)
  have hlt : n % 2 ^ 32 < 2 ^ 32 := Int.emod_lt_of_pos n (by norm_num)
  have hnat : ((n % 2 ^ 32).toNat : Int) = n % 2 ^ 32 := Int.toNat_of_nonneg hmod
  have hlt' : (n % 2 ^ 32).toNat < 2 ^ 32 := by omega
  have hfb : fromBytesLE (toBytesLE 4 (n % 2 ^ 32).toNat) = (n % 2 ^ 32).toNat := by
    rw [fromBytesLE_toBytesLE]
    exact Nat.mod_eq_of_lt (by norm_num at hlt' ⊢; omega)
  simp only [decInt32, i32Bytes, hfb, wrap32]
  by_cases h : (n % 2 ^ 32).toNat < 2 ^ 31
  · rw [if_pos h, if_pos (by omega)]
    omega
  · rw [if_neg h, if_neg (by omega)]
    omega

theorem wrap32_eq_self {n : Int} (h1 : -2 ^ 31 ≤ n) (h2 : n < 2 ^ 31) :
    wrap32 n = n := by
  unfold wrap32
  by_cases h : 0 ≤ n
  · have : n % 2 ^ 32 = n := Int.emod_eq_of_lt h (by omega)
    rw [this, if_pos (by omega)]
  · have : n % 2 ^ 32 = n + 2 ^ 32 := by omega
    rw [this, if_neg (by omega)]
    omega

theorem wrap32_natCast (L : Nat) (h : L < 2 ^ 31) : wrap32 (L : Int) = (L : Int) :=
  wrap32_eq_self (by omega) (by exact_mod_cast h)

/-- Decode 4 bytes as an IEEE-754 f32 bit pattern (`struct.unpack('f', ...)`
/ `array('f')`); the codec only transports the pattern. -/
def decF32 (bs : Bytes) : Nat := fromBytesLE bs

theorem decF32_toBytesLE (w : Nat) : decF32 (toBytesLE 4 w) = w % 2 ^ 32 := by
  rw [decF32, fromBytesLE_toBytesLE]
  norm_num

/-- `f.read(n)` followed by a fixed-size `struct.unpack` (or
`array.fromfile(f, ...)`): succeeds returning exactly `n` bytes and the
remaining stream, fails (`struct.error` / `EOFError`) when fewer than `n`
bytes are available. -/
def readBytes (n : Nat) (s : Bytes) : Option (Bytes × Bytes) :=
  if n ≤ s.length then some (s.take n, s.drop n) else none

theorem readBytes_append (n : Nat) (a b : Bytes) (h : a.length = n) :
    readBytes n (a ++ b) = some (a, b) := by
  subst h
  rw [readBytes, if_pos (by simp)]
  simp

theorem readBytes_none {n : Nat} {s : Bytes} (h : s.length < n) :
    readBytes n s = none := by
  rw [readBytes, if_neg (by omega)]

theorem readBytes_eq_of_le {n : Nat} {s : Bytes} (h : n ≤ s.length) :
    readBytes n s = some (s.take n, s.drop n) := by
  rw [readBytes, if_pos h]

/-! ## Reader primitives (struct_corpus.py and python_array.py) -/

/-- `struct.Struct('i i i').unpack(f.read(12))`: the fixed 12-byte header
`(num_docs, num_terms, num_nnz)`, as read by `read_headers`/`skip_headers`
of every reader class. -/
def readStructIII (s : Bytes) : Option (Int × Int × Int × Bytes) :=
  match readBytes 12 s with
  | none => none
  | some (buf, rest) =>
    some (decInt32 (buf.take 4), decInt32 ((buf.drop 4).take 4),
      decInt32 (buf.drop 8), rest)

/-- `struct.Struct('i i').unpack(f.read(8))`: one document sub-header
`(docid, doc_length)` in `MmReader1.__iter__` / `MmReader2.__iter__`. -/
def readStruct2I (s : Bytes) : Option (Int × Int × Bytes) :=
  match readBytes 8 s with
  | none => none
  | some (buf, rest) => some (decInt32 (buf.take 4), decInt32 (buf.drop 4), rest)

/-- `struct.Struct('i f').unpack(f.read(8))`: one `(term_id, weight)` pair
in `MmReader1.__iter__`. -/
def readStructIF (s : Bytes) : Option (Int × Nat × Bytes) :=
  match readBytes 8 s with
  | none => none
  | some (buf, rest) => some (decInt32 (buf.take 4), decF32 (buf.drop 4), rest)

/-- The inner entry loop of `MmReader1.__iter__`: for each of `n` entries,
unpack one `'i f'` pair; when `transposed` is false execute
`termid, docid = docid, termid` (note: this rebinds `docid` for the rest of
the same document) and append `(termid, value)`. -/
def mm1Entries (transposed : Bool) : Int → Nat → Bytes → Option (List Entry × Bytes)
  | _, 0, s => some ([], s)
  | docid, n + 1, s =>
    match readStructIF s with
    | none => none
    | some (termid, value, s1) =>
      let (termid2, docid2) :=
        if transposed then (termid, docid) else (docid, termid)
      match mm1Entries transposed docid2 n s1 with
      | none => none
      | some (rest, s2) => some ((termid2, value) :: rest, s2)

/-- One document decode of `MmReader1.__iter__`: unpack `(docid, doc_length)`
then run the entry loop `doc_length` times (`range(doc_length)` performs
`doc_length.toNat` iterations). -/
def mm1Doc (transposed : Bool) (s : Bytes) : Option (Doc × Bytes) :=
  match readStruct2I s with
  | none => none
  | some (docid, docLength, s1) => mm1Entries transposed docid docLength.toNat s1

/-- Split a flat buffer of `n` unpacked `'i f'` repetitions into pairs, as
`struct.Struct('i f' * doc_length).unpack` produces them. -/
def decodePairs : Nat → Bytes → List Entry
  | 0, _ => []
  | n + 1, bs =>
    (decInt32 (bs.take 4), decF32 ((bs.drop 4).take 4)) :: decodePairs n (bs.drop 8)

/-- The pairwise consumption loop of `MmReader2.__iter__` over the unpacked
flat tuple: the same `termid, docid = docid, termid` rebinding as
`MmReader1` when `transposed` is false. -/
def mm2ApplySwap (transposed : Bool) : Int → List Entry → List Entry
  | _, [] => []
  | docid, (termid, value) :: rest =>
    let (termid2, docid2) :=
      if transposed then (termid, docid) else (docid, termid)
    (termid2, value) :: mm2ApplySwap transposed docid2 rest

/-- One document decode of `MmReader2.__iter__`: unpack the sub-header, then
one bulk `f.read` of `doc_length` copies of the 8-byte `'i f'` layout,
then the pairwise loop. -/
def mm2Doc (transposed : Bool) (s : Bytes) : Option (Doc × Bytes) :=
  match readStruct2I s with
  | none => none
  | some (docid, docLength, s1) =>
    match readBytes (8 * docLength.toNat) s1 with
    | none => none
    | some (buf, s2) =>
      some (mm2ApplySwap transposed docid (decodePairs docLength.toNat buf), s2)

/-- Outcome of one full iteration pass of a reader: `ok docs` when the pass
completed, `err docs` when a decode raised after yielding `docs`. -/
inductive IterResult (α : Type) where
  | ok : List α → IterResult α
  | err : List α → IterResult α
deriving DecidableEq

/-- `for _ in range(num_docs): ... yield document`: perform `n` document
decodes in sequence; a failed decode aborts the pass, keeping the documents
already yielded. -/
def iterDocs (readDoc : Bytes → Option (Doc × Bytes)) : Nat → Bytes → IterResult Doc
  | 0, _ => .ok []
  | n + 1, s =>
    match readDoc s with
    | none => .err []
    | some (d, s1) =>
      match iterDocs readDoc n s1 with
      | .ok l => .ok (d :: l)
      | .err l => .err (d :: l)

/-- A full pass of `MmReader1`: read the header (both `__init__` and
`skip_headers` read it from the same file, so one read determines
`num_docs`), then `num_docs` document decodes. -/
def mm1Iter (transposed : Bool) (s : Bytes) : IterResult Doc :=
  match readStructIII s with
  | none => .err []
  | some (numDocs, _, _, s1) => iterDocs (mm1Doc transposed) numDocs.toNat s1

/-- A full pass of `MmReader2`. -/
def mm2Iter (transposed : Bool) (s : Bytes) : IterResult Doc :=
  match readStructIII s with
  | none => .err []
  | some (numDocs, _, _, s1) => iterDocs (mm2Doc transposed) numDocs.toNat s1

/-! ## python_array.py reader -/

/-- Decode a buffer of `n` consecutive 4-byte ints, as
`array('i').fromfile` materializes them. -/
def i32ListOfBytes : Nat → Bytes → List Int
  | 0, _ => []
  | n + 1, bs => decInt32 (bs.take 4) :: i32ListOfBytes n (bs.drop 4)

/-- Decode a buffer of `n` consecutive 4-byte floats (`array('f')`),
each as its bit pattern. -/
def f32ListOfBytes : Nat → Bytes → List Nat
  | 0, _ => []
  | n + 1, bs => decF32 (bs.take 4) :: f32ListOfBytes n (bs.drop 4)

/-- `array('i').fromfile(f, n)`: reads `4 * n` bytes or raises (`EOFError`
on a short file, `ValueError` on a negative count). -/
def readArrI32 (n : Int) (s : Bytes) : Option (List Int × Bytes) :=
  if 0 ≤ n then
    match readBytes (4 * n.toNat) s with
    | none => none
    | some (buf, rest) => some (i32ListOfBytes n.toNat buf, rest)
  else none

/-- `array('f').fromfile(f, n)`. -/
def readArrF32 (n : Int) (s : Bytes) : Option (List Nat × Bytes) :=
  if 0 ≤ n then
    match readBytes (4 * n.toNat) s with
    | none => none
    | some (buf, rest) => some (f32ListOfBytes n.toNat buf, rest)
  else none

/-- One document decode of `MmReaderArray.__iter__`: a 2-int sub-header via
`array('i').fromfile(f, 2)`, then `doc_length` term ids, then `doc_length`
weights, paired positionally by `zip`.  Note: `docid` is read and then
unused, and `self.transposed` is never consulted. -/
def mmArrDoc (s : Bytes) : Option (Doc × Bytes) :=
  match readArrI32 2 s with
  | some ([_docid, docLength], s1) =>
    match readArrI32 docLength s1 with
    | none => none
    | some (termids, s2) =>
      match readArrF32 docLength s2 with
      | none => none
      | some (values, s3) => some (termids.zip values, s3)
  | _ => none

/-- A full pass of `MmReaderArray`: the 3-int header via
`array('i').fromfile(f, 3)`, then `num_docs` document decodes.  The
`transposed` flag held by the reader plays no role in `__iter__`. -/
def mmArrIter (_transposed : Bool) (s : Bytes) : IterResult Doc :=
  match readArrI32 3 s with
  | some ([numDocs, _numTerms, _numNnz], s1) => iterDocs mmArrDoc numDocs.toNat s1
  | _ => .err []

/-! ## Writer (MmReaderArray.save_corpus) -/

/-- Header statistics of a corpus: the attributes `num_docs`, `num_terms`,
`num_nnz` that `save_corpus` reads off the corpus object. -/
structure Stats where
  numDocs : Int
  numTerms : Int
  numNnz : Int

/-- Whether `n` fits a signed 32-bit slot (`-2^31 ≤ n < 2^31`), phrased on
the two constructors of `Int` so that it reduces cheaply. -/
def inI32Range (n : Int) : Bool :=
  match n with
  | .ofNat m => m < 2 ^ 31
  | .negSucc m => m < 2 ^ 31

theorem inI32Range_iff (n : Int) :
    inI32Range n = true ↔ -2 ^ 31 ≤ n ∧ n < 2 ^ 31 := by
  cases n with
  | ofNat m =>
    simp only [inI32Range, decide_eq_true_eq, Int.ofNat_eq_natCast]
    omega
  | negSucc m =>
    simp only [inI32Range, decide_eq_true_eq, Int.negSucc_eq]
    omega

/-- Packing one int into an `array('i')` / `struct` `'i'` slot: raises
(`OverflowError` / `struct.error`) outside the signed 32-bit range. -/
def encInt32 (n : Int) : Option Bytes :=
  if inI32Range n then some (i32Bytes n) else none

/-- Building an `array('i')` by appending each term id. -/
def encI32List : List Int → Option Bytes
  | [] => some []
  | n :: ns =>
    match encInt32 n with
    | none => none
    | some b =>
      match encI32List ns with
      | none => none
      | some r => some (b ++ r)

/-- Building an `array('f')` by appending each weight: narrowing a float
never raises, so this is total on bit patterns. -/
def encF32List : List Nat → Bytes
  | [] => []
  | w :: ws => toBytesLE 4 w ++ encF32List ws

/-- `array("i", [num_docs, num_terms, num_nnz])` for the header. -/
def encHeader (st : Stats) : Option Bytes :=
  match encInt32 st.numDocs with
  | none => none
  | some a =>
    match encInt32 st.numTerms with
    | none => none
    | some b =>
      match encInt32 st.numNnz with
      | none => none
      | some c => some (a ++ b ++ c)

/-- Observable events on the destination stream of `save_corpus`:
`smart_open` (`op`), a `tofile` write (`wr`), and `f.close()` (`cl`). -/
inductive Ev where
  | op : Ev
  | wr : Bytes → Ev
  | cl : Ev
deriving DecidableEq

/-- One iteration of the document loop in `save_corpus`, for positional id
`docid` (from `enumerate`): build and write `array("i", [docid, doc_length])`,
then build the term-id and weight arrays (an out-of-range term id raises
here, after the sub-header bytes are already on the stream), then write
both. -/
def saveDocTr (docid : Nat) (doc : Doc) : List Ev × Bool :=
  match encInt32 (docid : Int) with
  | none => ([], false)
  | some a =>
    match encInt32 (doc.length : Int) with
    | none => ([], false)
    | some b =>
      match encI32List (doc.map (·.1)) with
      | none => ([.wr (a ++ b)], false)
      | some tids =>
        ([.wr (a ++ b), .wr tids, .wr (encF32List (doc.map (·.2)))], true)

/-- The document loop of `save_corpus` over `enumerate(corpus)`. -/
def saveDocsTr (docid : Nat) : List Doc → List Ev × Bool
  | [] => ([], true)
  | d :: ds =>
    match saveDocTr docid d with
    | (tr, false) => (tr, false)
    | (tr, true) =>
      match saveDocsTr (docid + 1) ds with
      | (tr2, ok) => (tr ++ tr2, ok)

/-- `MmReaderArray.save_corpus` as its sequence of stream events: open the
destination, write the header, run the document loop, and call `f.close()`
only at the end of the function body — an exception propagates past it. -/
def saveCorpusTr (stats : Stats) (docs : List Doc) : List Ev × Bool :=
  match encHeader stats with
  | none => ([.op], false)
  | some hdr =>
    match saveDocsTr 0 docs with
    | (tr, true) => ([.op, .wr hdr] ++ tr ++ [.cl], true)
    | (tr, false) => ([.op, .wr hdr] ++ tr, false)

/-- The bytes a trace has written to the destination. -/
def writtenBytes : List Ev → Bytes
  | [] => []
  | .wr b :: tr => b ++ writtenBytes tr
  | _ :: tr => writtenBytes tr

/-- The file produced by a successful `save_corpus` call, `none` when the
call raised. -/
def saveBytes (stats : Stats) (docs : List Doc) : Option Bytes :=
  match saveCorpusTr stats docs with
  | (tr, true) => some (writtenBytes tr)
  | (_, false) => none

/-! ## File layout (spec §6)

`encDocI`/`encDocsI` are modelled from the spec: the Interleaved entry
layout `(int32 term_id, float32 weight) repeated doc_length times` after the
`int32 doc_id, int32 doc_length` sub-header.  The repository's interleaved
writer (`cython_binary.save_corpus`, referenced by `create_corpus.py`) is
not under src/, so the layout grammar of spec §6 defines well-formed
interleaved files here.  `encDocC` is the Columnar layout of the same
grammar; it coincides with what `save_corpus` writes (proved below). -/

/-- Interleaved entry payload: `(int32 term_id, float32 weight)` repeated. -/
def encEntriesI : List Entry → Bytes
  | [] => []
  | e :: es => i32Bytes e.1 ++ toBytesLE 4 e.2 ++ encEntriesI es

/-- One interleaved document record: sub-header then interleaved pairs. -/
def encDocI (docid : Int) (doc : List Entry) : Bytes :=
  i32Bytes docid ++ i32Bytes (doc.length : Int) ++ encEntriesI doc

/-- Concatenated interleaved records of a document sequence
(each with its own sub-header doc id). -/
def encDocsI : List (Int × Doc) → Bytes
  | [] => []
  | p :: ps => encDocI p.1 p.2 ++ encDocsI ps

/-- Columnar term-id block: `int32 term_id[doc_length]`. -/
def encTids : List Entry → Bytes
  | [] => []
  | e :: es => i32Bytes e.1 ++ encTids es

/-- Columnar weight block: `float32 weight[doc_length]`. -/
def encVals : List Entry → Bytes
  | [] => []
  | e :: es => toBytesLE 4 e.2 ++ encVals es

/-- One columnar document record: sub-header, term-id block, weight block. -/
def encDocC (docid : Int) (doc : List Entry) : Bytes :=
  i32Bytes docid ++ i32Bytes (doc.length : Int) ++ encTids doc ++ encVals doc

/-- Concatenated columnar records. -/
def encDocsC : List (Int × Doc) → Bytes
  | [] => []
  | p :: ps => encDocC p.1 p.2 ++ encDocsC ps

/-- The 12 header bytes `int32 num_docs, int32 num_terms, int32 num_nnz`. -/
def encHeaderBytes (st : Stats) : Bytes :=
  i32Bytes st.numDocs ++ i32Bytes st.numTerms ++ i32Bytes st.numNnz

/-- A well-formed interleaved corpus file. -/
def encFileI (st : Stats) (docs : List (Int × Doc)) : Bytes :=
  encHeaderBytes st ++ encDocsI docs

/-- A well-formed columnar corpus file. -/
def encFileC (st : Stats) (docs : List (Int × Doc)) : Bytes :=
  encHeaderBytes st ++ encDocsC docs

/-! ## Decoded views of encoded data -/

/-- What an entry looks like after a byte round trip: the term id reduced
into i32 range, the weight pattern reduced mod `2^32`. -/
def wrapEntries (doc : List Entry) : List Entry :=
  doc.map fun e => (wrap32 e.1, e.2 % 2 ^ 32)

/-- The document `MmReader1`/`MmReader2` yield for an interleaved record
with sub-header id `docid` and stored entries `doc`. -/
def outI (transposed : Bool) (docid : Int) (doc : List Entry) : Doc :=
  mm2ApplySwap transposed (wrap32 docid) (wrapEntries doc)

/-- The full output of a struct-reader pass over interleaved records. -/
def outsI (transposed : Bool) (docs : List (Int × Doc)) : List Doc :=
  docs.map fun p => outI transposed p.1 p.2

/-- The full output of an `MmReaderArray` pass over columnar records. -/
def outsC (docs : List (Int × Doc)) : List Doc :=
  docs.map fun p => wrapEntries p.2

/-! ## Length of encoded data -/

theorem take_append_len {α : Type} (a b : List α) (n : Nat) (h : a.length = n) :
    (a ++ b).take n = a := by
  subst h
  simp

theorem drop_append_len {α : Type} (a b : List α) (n : Nat) (h : a.length = n) :
    (a ++ b).drop n = b := by
  subst h
  simp

theorem length_encEntriesI (doc : List Entry) :
    (encEntriesI doc).length = 8 * doc.length := by
  induction doc with
  | nil => rfl
  | cons e es ih =>
    simp [encEntriesI, ih, length_i32Bytes, length_toBytesLE, List.length_cons,
      Nat.mul_succ]
    omega

theorem length_encTids (doc : List Entry) : (encTids doc).length = 4 * doc.length := by
  induction doc with
  | nil => rfl
  | cons e es ih =>
    simp [encTids, ih, length_i32Bytes, List.length_cons, Nat.mul_succ]
    omega

theorem length_encVals (doc : List Entry) : (encVals doc).length = 4 * doc.length := by
  induction doc with
  | nil => rfl
  | cons e es ih =>
    simp [encVals, ih, length_toBytesLE, List.length_cons, Nat.mul_succ]
    omega

theorem length_encDocI (docid : Int) (doc : List Entry) :
    (encDocI docid doc).length = 8 + 8 * doc.length := by
  simp [encDocI, length_i32Bytes, length_encEntriesI]
  omega

theorem length_encDocC (docid : Int) (doc : List Entry) :
    (encDocC docid doc).length = 8 + 8 * doc.length := by
  simp [encDocC, length_i32Bytes, length_encTids, length_encVals]
  omega

theorem length_encHeaderBytes (st : Stats) : (encHeaderBytes st).length = 12 := by
  simp [encHeaderBytes, length_i32Bytes]

/-! ## Struct unpack lemmas -/

theorem readStruct2I_append (a b : Int) (rest : Bytes) :
    readStruct2I (i32Bytes a ++ (i32Bytes b ++ rest)) =
      some (wrap32 a, wrap32 b, rest) := by
  have h8 : (i32Bytes a ++ i32Bytes b).length = 8 := by
    simp [length_i32Bytes]
  rw [← List.append_assoc]
  simp only [readStruct2I, readBytes_append 8 _ rest h8,
    take_append_len _ _ 4 (length_i32Bytes a), drop_append_len _ _ 4 (length_i32Bytes a),
    decInt32_i32Bytes]

theorem readStructIF_append (t : Int) (w : Nat) (rest : Bytes) :
    readStructIF (i32Bytes t ++ (toBytesLE 4 w ++ rest)) =
      some (wrap32 t, w % 2 ^ 32, rest) := by
  have h8 : (i32Bytes t ++ toBytesLE 4 w).length = 8 := by
    simp [length_i32Bytes, length_toBytesLE]
  rw [← List.append_assoc]
  simp only [readStructIF, readBytes_append 8 _ rest h8,
    take_append_len _ _ 4 (length_i32Bytes t), drop_append_len _ _ 4 (length_i32Bytes t),
    decInt32_i32Bytes, decF32_toBytesLE]

theorem readStructIII_append (st : Stats) (rest : Bytes) :
    readStructIII (encHeaderBytes st ++ rest) =
      some (wrap32 st.numDocs, wrap32 st.numTerms, wrap32 st.numNnz, rest) := by
  have h12 : (encHeaderBytes st).length = 12 := length_encHeaderBytes st
  have h4 : ((encHeaderBytes st).take 4) = i32Bytes st.numDocs := by
    rw [encHeaderBytes, List.append_assoc]
    exact take_append_len _ _ 4 (length_i32Bytes _)
  have hd4 : ((encHeaderBytes st).drop 4) = i32Bytes st.numTerms ++ i32Bytes st.numNnz := by
    rw [encHeaderBytes, List.append_assoc]
    exact drop_append_len _ _ 4 (length_i32Bytes _)
  have h48 : ((encHeaderBytes st).drop 4).take 4 = i32Bytes st.numTerms := by
    rw [hd4]
    exact take_append_len _ _ 4 (length_i32Bytes _)
  have h8 : (encHeaderBytes st).drop 8 = i32Bytes st.numNnz := by
    have hdd : (encHeaderBytes st).drop 8 = ((encHeaderBytes st).drop 4).drop 4 := by
      rw [List.drop_drop]
    rw [hdd, hd4]
    exact drop_append_len _ _ 4 (length_i32Bytes _)
  simp only [readStructIII, readBytes_append 12 _ rest h12, h4, h48, h8,
    decInt32_i32Bytes]

theorem readStructIII_short {s : Bytes} (h : s.length < 12) :
    readStructIII s = none := by
  simp only [readStructIII, readBytes_none h]

/-! ## MmReader1: decoding an encoded interleaved record -/

theorem mm1Entries_enc (t : Bool) (doc : List Entry) :
    ∀ (docid : Int) (rest : Bytes),
      mm1Entries t docid doc.length (encEntriesI doc ++ rest) =
        some (mm2ApplySwap t docid (wrapEntries doc), rest) := by
  induction doc with
  | nil =>
    intro docid rest
    simp [mm1Entries, encEntriesI, wrapEntries, mm2ApplySwap]
  | cons e es ih =>
    intro docid rest
    have harr : encEntriesI (e :: es) ++ rest =
        i32Bytes e.1 ++ (toBytesLE 4 e.2 ++ (encEntriesI es ++ rest)) := by
      simp [encEntriesI]
    cases t <;>
      simp [mm1Entries, harr, readStructIF_append, wrapEntries, mm2ApplySwap, ih]

theorem mm1Doc_enc (t : Bool) (docid : Int) (doc : List Entry) (rest : Bytes)
    (hL : doc.length < 2 ^ 31) :
    mm1Doc t (encDocI docid doc ++ rest) = some (outI t docid doc, rest) := by
  have harr : encDocI docid doc ++ rest =
      i32Bytes docid ++ (i32Bytes (doc.length : Int) ++ (encEntriesI doc ++ rest)) := by
    simp [encDocI]
  simp only [mm1Doc, harr, readStruct2I_append, wrap32_natCast _ hL,
    Int.toNat_natCast, mm1Entries_enc, outI]

theorem mm1Entries_none (t : Bool) :
    ∀ (n : Nat) (docid : Int) (s : Bytes), s.length < 8 * n →
      mm1Entries t docid n s = none := by
  intro n
  induction n with
  | zero => intro docid s h; omega
  | succ n ih =>
    intro docid s h
    by_cases h8 : s.length < 8
    · simp only [mm1Entries, readStructIF, readBytes_none h8]
    · have hrec : mm1Entries t
          (if t then (decInt32 (List.take 4 (s.take 8)), docid)
            else (docid, decInt32 (List.take 4 (s.take 8)))).2 n (s.drop 8) = none := by
        apply ih
        simp only [List.length_drop]
        omega
      simp only [mm1Entries, readStructIF, readBytes_eq_of_le
        (by omega : 8 ≤ s.length), hrec]

theorem mm1Doc_trunc (t : Bool) (docid : Int) (doc : List Entry) (k : Nat)
    (hL : doc.length < 2 ^ 31) (hk : k < (encDocI docid doc).length) :
    mm1Doc t ((encDocI docid doc).take k) = none := by
  rw [length_encDocI] at hk
  by_cases h8 : k < 8
  · have hlen : ((encDocI docid doc).take k).length < 8 := by
      simp only [List.length_take]
      omega
    simp only [mm1Doc, readStruct2I, readBytes_none hlen]
  · have hsub : (i32Bytes docid ++ i32Bytes (doc.length : Int)).length = 8 := by
      simp [length_i32Bytes]
    have htake : (encDocI docid doc).take k =
        i32Bytes docid ++ (i32Bytes (doc.length : Int) ++ (encEntriesI doc).take (k - 8)) := by
      have hsplit : encDocI docid doc =
          (i32Bytes docid ++ i32Bytes (doc.length : Int)) ++ encEntriesI doc := by
        simp [encDocI]
      rw [hsplit, List.take_append_eq_append_take, hsub,
        List.take_of_length_le (by omega : (i32Bytes docid ++ i32Bytes (doc.length : Int)).length ≤ k),
        List.append_assoc]
    have hent : mm1Entries t (wrap32 docid) doc.length ((encEntriesI doc).take (k - 8)) = none := by
      apply mm1Entries_none
      simp only [List.length_take, length_encEntriesI]
      omega
    simp only [htake, mm1Doc, readStruct2I_append, wrap32_natCast _ hL,
      Int.toNat_natCast, hent]

/-! ## MmReader1: full passes over well-formed and truncated files -/

theorem iterDocs_mm1_ok (t : Bool) (docs : List (Int × Doc))
    (hd : ∀ p ∈ docs, p.2.length < 2 ^ 31) :
    ∀ rest : Bytes,
      iterDocs (mm1Doc t) docs.length (encDocsI docs ++ rest) = .ok (outsI t docs) := by
  induction docs with
  | nil => intro rest; simp [iterDocs, outsI]
  | cons p ps ih =>
    intro rest
    have hp : p.2.length < 2 ^ 31 := hd p (by simp)
    have harr : encDocsI (p :: ps) ++ rest = encDocI p.1 p.2 ++ (encDocsI ps ++ rest) := by
      simp [encDocsI]
    have ihr := ih (fun q hq => hd q (by simp [hq])) rest
    simp only [List.length_cons, iterDocs, harr, mm1Doc_enc t p.1 p.2 _ hp, ihr,
      outsI, List.map_cons]

theorem iterDocs_mm1_trunc (t : Bool) (docs : List (Int × Doc))
    (hd : ∀ p ∈ docs, p.2.length < 2 ^ 31) :
    ∀ k : Nat, k < (encDocsI docs).length →
      ∃ m, iterDocs (mm1Doc t) docs.length ((encDocsI docs).take k) =
        .err ((outsI t docs).take m) := by
  induction docs with
  | nil =>
    intro k hk
    simp [encDocsI] at hk
  | cons p ps ih =>
    intro k hk
    have hp : p.2.length < 2 ^ 31 := hd p (by simp)
    have hlen1 : (encDocI p.1 p.2).length = 8 + 8 * p.2.length := length_encDocI _ _
    have hsplit : encDocsI (p :: ps) = encDocI p.1 p.2 ++ encDocsI ps := rfl
    rw [hsplit, List.length_append] at hk
    by_cases hcase : k < (encDocI p.1 p.2).length
    · -- the cut lands inside the first record: its decode fails, nothing yielded
      refine ⟨0, ?_⟩
      have htake : (encDocsI (p :: ps)).take k = (encDocI p.1 p.2).take k := by
        rw [hsplit, List.take_append_eq_append_take,
          Nat.sub_eq_zero_of_le (by omega), List.take_zero, List.append_nil]
      have hfail := mm1Doc_trunc t p.1 p.2 k hp hcase
      simp only [List.length_cons, iterDocs, htake, hfail, List.take_zero]
    · -- the first record is complete: it decodes, and the cut recurses
      obtain ⟨m, hm⟩ := ih (fun q hq => hd q (by simp [hq])) (k - (encDocI p.1 p.2).length)
        (by omega)
      refine ⟨m + 1, ?_⟩
      have htake : (encDocsI (p :: ps)).take k =
          encDocI p.1 p.2 ++ (encDocsI ps).take (k - (encDocI p.1 p.2).length) := by
        rw [hsplit, List.take_append_eq_append_take,
          List.take_of_length_le (by omega : (encDocI p.1 p.2).length ≤ k)]
      simp only [List.length_cons, iterDocs, htake, mm1Doc_enc t p.1 p.2 _ hp, hm,
        outsI, List.map_cons, List.take_succ_cons]

theorem mm1Iter_encFileI (t : Bool) (st : Stats) (docs : List (Int × Doc))
    (hd : ∀ p ∈ docs, p.2.length < 2 ^ 31)
    (hn : st.numDocs = (docs.length : Int)) (hlen : docs.length < 2 ^ 31) :
    mm1Iter t (encFileI st docs) = .ok (outsI t docs) := by
  have hwrap : wrap32 st.numDocs = (docs.length : Int) := by
    rw [hn]
    exact wrap32_natCast _ hlen
  have hbody := iterDocs_mm1_ok t docs hd []
  rw [List.append_nil] at hbody
  simp only [mm1Iter, encFileI, readStructIII_append, hwrap, Int.toNat_natCast, hbody]

theorem mm1Iter_trunc (t : Bool) (st : Stats) (docs : List (Int × Doc))
    (hd : ∀ p ∈ docs, p.2.length < 2 ^ 31)
    (hn : st.numDocs = (docs.length : Int)) (hlen : docs.length < 2 ^ 31)
    (k : Nat) (hk : k < (encFileI st docs).length) :
    ∃ m, mm1Iter t ((encFileI st docs).take k) = .err ((outsI t docs).take m) := by
  have hwrap : wrap32 st.numDocs = (docs.length : Int) := by
    rw [hn]
    exact wrap32_natCast _ hlen
  rw [encFileI, List.length_append, length_encHeaderBytes] at hk
  by_cases h12 : k < 12
  · refine ⟨0, ?_⟩
    have hshort : ((encFileI st docs).take k).length < 12 := by
      simp only [List.length_take]
      omega
    simp only [mm1Iter, readStructIII_short hshort, List.take_zero]
  · have htake : (encFileI st docs).take k =
        encHeaderBytes st ++ (encDocsI docs).take (k - 12) := by
      rw [encFileI, List.take_append_eq_append_take, length_encHeaderBytes,
        List.take_of_length_le (by rw [length_encHeaderBytes]; omega)]
    obtain ⟨m, hm⟩ := iterDocs_mm1_trunc t docs hd (k - 12) (by omega)
    refine ⟨m, ?_⟩
    simp only [htake, mm1Iter, readStructIII_append, hwrap, Int.toNat_natCast, hm]

/-! ## MmReader2 is pointwise equal to MmReader1 -/

theorem mm1Entries_eq_bulk (t : Bool) :
    ∀ (n : Nat) (docid : Int) (s : Bytes),
      mm1Entries t docid n s =
        match readBytes (8 * n) s with
        | none => none
        | some (buf, rest) => some (mm2ApplySwap t docid (decodePairs n buf), rest) := by
  intro n
  induction n with
  | zero =>
    intro docid s
    simp [mm1Entries, readBytes, decodePairs, mm2ApplySwap]
  | succ n ih =>
    intro docid s
    by_cases h8 : s.length < 8
    · have hb : readBytes (8 * (n + 1)) s = none := readBytes_none (by omega)
      simp only [mm1Entries, readStructIF, readBytes_none h8, hb]
    · push_neg at h8
      have htake8 : (s.take 8).take 4 = s.take 4 := by
        rw [List.take_take]
        congr 1
      have hdrop48 : (s.take 8).drop 4 = (s.drop 4).take 4 := by
        rw [List.drop_take]
      by_cases hbig : 8 * (n + 1) ≤ s.length
      · have hb : readBytes (8 * (n + 1)) s = some (s.take (8 * (n + 1)), s.drop (8 * (n + 1))) :=
          readBytes_eq_of_le hbig
        have hdrop8 : (s.take (8 * (n + 1))).drop 8 = (s.drop 8).take (8 * n) := by
          rw [List.drop_take]
          congr 1
        have hdropall : s.drop (8 * (n + 1)) = (s.drop 8).drop (8 * n) := by
          rw [List.drop_drop]
          congr 1
          omega
        have htake4 : (s.take (8 * (n + 1))).take 4 = s.take 4 := by
          rw [List.take_take]
          congr 1
        have htake48 : ((s.take (8 * (n + 1))).drop 4).take 4 = (s.drop 4).take 4 := by
          rw [List.drop_take, List.take_take]
          congr 1
          omega
        have hrec : readBytes (8 * n) (s.drop 8) =
            some ((s.drop 8).take (8 * n), (s.drop 8).drop (8 * n)) :=
          readBytes_eq_of_le (by simp only [List.length_drop]; omega)
        simp only [mm1Entries, readStructIF, readBytes_eq_of_le h8, ih, hrec, hb,
          decodePairs, hdrop8, hdropall, htake4, htake48, htake8, hdrop48, mm2ApplySwap]
      · have hb : readBytes (8 * (n + 1)) s = none := readBytes_none (by omega)
        have hrec : readBytes (8 * n) (s.drop 8) = none :=
          readBytes_none (by simp only [List.length_drop]; omega)
        simp only [mm1Entries, readStructIF, readBytes_eq_of_le h8, ih, hrec, hb]

theorem mm2Doc_eq_mm1Doc (t : Bool) (s : Bytes) : mm2Doc t s = mm1Doc t s := by
  rw [mm2Doc, mm1Doc]
  cases hsub : readStruct2I s with
  | none => rfl
  | some v =>
    obtain ⟨docid, docLength, s1⟩ := v
    simp only [mm1Entries_eq_bulk]

theorem iterDocs_congr (f g : Bytes → Option (Doc × Bytes)) (hfg : ∀ s, f s = g s) :
    ∀ (n : Nat) (s : Bytes), iterDocs f n s = iterDocs g n s := by
  intro n
  induction n with
  | zero => intro s; rfl
  | succ n ih =>
    intro s
    rw [iterDocs, iterDocs, hfg s]
    cases g s with
    | none => rfl
    | some v =>
      obtain ⟨d, s1⟩ := v
      simp only [ih]

theorem mm2Iter_eq_mm1Iter (t : Bool) (s : Bytes) : mm2Iter t s = mm1Iter t s := by
  rw [mm2Iter, mm1Iter]
  cases h : readStructIII s with
  | none => rfl
  | some v =>
    exact iterDocs_congr _ _ (mm2Doc_eq_mm1Doc t) _ _

/-! ## MmReaderArray: decoding an encoded columnar record -/

theorem take_all_len (a : Bytes) (n : Nat) (h : a.length = n) : a.take n = a := by
  subst h
  exact List.take_length a

theorem readArrI32_natCast (n : Nat) (s : Bytes) :
    readArrI32 (n : Int) s =
      match readBytes (4 * n) s with
      | none => none
      | some (buf, rest) => some (i32ListOfBytes n buf, rest) := by
  rw [readArrI32, if_pos (Int.natCast_nonneg n), Int.toNat_natCast]

theorem readArrF32_natCast (n : Nat) (s : Bytes) :
    readArrF32 (n : Int) s =
      match readBytes (4 * n) s with
      | none => none
      | some (buf, rest) => some (f32ListOfBytes n buf, rest) := by
  rw [readArrF32, if_pos (Int.natCast_nonneg n), Int.toNat_natCast]

theorem readArrI32_two (a b : Int) (rest : Bytes) :
    readArrI32 2 (i32Bytes a ++ (i32Bytes b ++ rest)) =
      some ([wrap32 a, wrap32 b], rest) := by
  have h8 : (i32Bytes a ++ i32Bytes b).length = 8 := by
    simp [length_i32Bytes]
  rw [readArrI32, if_pos (by norm_num), show ((2:Int)).toNat = 2 from rfl,
    show (4 * 2 : Nat) = 8 from rfl, ← List.append_assoc, readBytes_append 8 _ rest h8]
  simp only [i32ListOfBytes, take_append_len _ _ 4 (length_i32Bytes a),
    drop_append_len _ _ 4 (length_i32Bytes a),
    take_all_len _ 4 (length_i32Bytes b), decInt32_i32Bytes]

theorem readArrI32_two_none (s : Bytes) (h : s.length < 8) :
    readArrI32 2 s = none := by
  rw [readArrI32, if_pos (by norm_num), show ((2:Int)).toNat = 2 from rfl,
    show (4 * 2 : Nat) = 8 from rfl, readBytes_none h]

theorem readArrI32_three (a b c : Int) (rest : Bytes) :
    readArrI32 3 (i32Bytes a ++ (i32Bytes b ++ (i32Bytes c ++ rest))) =
      some ([wrap32 a, wrap32 b, wrap32 c], rest) := by
  have h12 : (i32Bytes a ++ i32Bytes b ++ i32Bytes c).length = 12 := by
    simp [length_i32Bytes]
  rw [readArrI32, if_pos (by norm_num), show ((3:Int)).toNat = 3 from rfl,
    show (4 * 3 : Nat) = 12 from rfl, ← List.append_assoc, ← List.append_assoc,
    readBytes_append 12 _ rest h12]
  have hd1 : (i32Bytes a ++ i32Bytes b ++ i32Bytes c).drop 4 = i32Bytes b ++ i32Bytes c := by
    rw [List.append_assoc]
    exact drop_append_len _ _ 4 (length_i32Bytes a)
  have ht1 : (i32Bytes a ++ i32Bytes b ++ i32Bytes c).take 4 = i32Bytes a := by
    rw [List.append_assoc]
    exact take_append_len _ _ 4 (length_i32Bytes a)
  simp only [i32ListOfBytes, ht1, hd1, take_append_len _ _ 4 (length_i32Bytes b),
    drop_append_len _ _ 4 (length_i32Bytes b), take_all_len _ 4 (length_i32Bytes c),
    decInt32_i32Bytes]

theorem readArrI32_three_none (s : Bytes) (h : s.length < 12) :
    readArrI32 3 s = none := by
  rw [readArrI32, if_pos (by norm_num), show ((3:Int)).toNat = 3 from rfl,
    show (4 * 3 : Nat) = 12 from rfl, readBytes_none h]

theorem i32ListOfBytes_encTids (doc : List Entry) :
    i32ListOfBytes doc.length (encTids doc) = doc.map fun e => wrap32 e.1 := by
  induction doc with
  | nil => rfl
  | cons e es ih =>
    simp only [List.length_cons, i32ListOfBytes, encTids,
      take_append_len _ _ 4 (length_i32Bytes e.1), drop_append_len _ _ 4 (length_i32Bytes e.1),
      decInt32_i32Bytes, ih, List.map_cons]

theorem f32ListOfBytes_encVals (doc : List Entry) :
    f32ListOfBytes doc.length (encVals doc) = doc.map fun e => e.2 % 2 ^ 32 := by
  induction doc with
  | nil => rfl
  | cons e es ih =>
    simp only [List.length_cons, f32ListOfBytes, encVals,
      take_append_len _ _ 4 (length_toBytesLE 4 e.2), drop_append_len _ _ 4 (length_toBytesLE 4 e.2),
      decF32_toBytesLE, ih, List.map_cons]

theorem mmArrDoc_enc (docid : Int) (doc : List Entry) (rest : Bytes)
    (hL : doc.length < 2 ^ 31) :
    mmArrDoc (encDocC docid doc ++ rest) = some (wrapEntries doc, rest) := by
  have harr : encDocC docid doc ++ rest =
      i32Bytes docid ++ (i32Bytes (doc.length : Int) ++
        (encTids doc ++ (encVals doc ++ rest))) := by
    simp [encDocC]
  have htids : readBytes (4 * doc.length) (encTids doc ++ (encVals doc ++ rest)) =
      some (encTids doc, encVals doc ++ rest) :=
    readBytes_append _ _ _ (length_encTids doc)
  have hvals : readBytes (4 * doc.length) (encVals doc ++ rest) =
      some (encVals doc, rest) :=
    readBytes_append _ _ _ (length_encVals doc)
  have hzip : (doc.map fun e => wrap32 e.1).zip (doc.map fun e => e.2 % 2 ^ 32) =
      wrapEntries doc := by
    rw [wrapEntries, List.zip_map']
  simp only [mmArrDoc, harr, readArrI32_two, wrap32_natCast _ hL, readArrI32_natCast,
    readArrF32_natCast, htids, hvals, i32ListOfBytes_encTids, f32ListOfBytes_encVals,
    hzip]

theorem mmArrDoc_trunc (docid : Int) (doc : List Entry) (k : Nat)
    (hL : doc.length < 2 ^ 31) (hk : k < (encDocC docid doc).length) :
    mmArrDoc ((encDocC docid doc).take k) = none := by
  rw [length_encDocC] at hk
  by_cases h8 : k < 8
  · have hlen : ((encDocC docid doc).take k).length < 8 := by
      simp only [List.length_take]
      omega
    simp only [mmArrDoc, readArrI32_two_none _ hlen]
  · have hsub : (i32Bytes docid ++ i32Bytes (doc.length : Int)).length = 8 := by
      simp [length_i32Bytes]
    have hsplit : encDocC docid doc =
        (i32Bytes docid ++ i32Bytes (doc.length : Int)) ++ (encTids doc ++ encVals doc) := by
      simp [encDocC]
    have htake : (encDocC docid doc).take k =
        i32Bytes docid ++ (i32Bytes (doc.length : Int) ++
          (encTids doc ++ encVals doc).take (k - 8)) := by
      rw [hsplit, List.take_append_eq_append_take, hsub,
        List.take_of_length_le (by omega : (i32Bytes docid ++ i32Bytes (doc.length : Int)).length ≤ k),
        List.append_assoc]
    by_cases htid : k - 8 < 4 * doc.length
    · -- the cut lands in the term-id block
      have htake2 : (encTids doc ++ encVals doc).take (k - 8) = (encTids doc).take (k - 8) := by
        rw [List.take_append_eq_append_take, Nat.sub_eq_zero_of_le
          (show k - 8 ≤ (encTids doc).length by rw [length_encTids]; omega),
          List.take_zero, List.append_nil]
      have hfail : readBytes (4 * doc.length) ((encTids doc).take (k - 8)) = none := by
        apply readBytes_none
        simp only [List.length_take, length_encTids]
        omega
      simp only [mmArrDoc, htake, htake2, readArrI32_two, wrap32_natCast _ hL,
        readArrI32_natCast, hfail]
    · -- the term-id block is complete; the cut lands in the weight block
      have htake2 : (encTids doc ++ encVals doc).take (k - 8) =
          encTids doc ++ (encVals doc).take (k - 8 - 4 * doc.length) := by
        rw [List.take_append_eq_append_take, length_encTids,
          List.take_of_length_le (by rw [length_encTids]; omega)]
      have htids : readBytes (4 * doc.length)
          (encTids doc ++ (encVals doc).take (k - 8 - 4 * doc.length)) =
          some (encTids doc, (encVals doc).take (k - 8 - 4 * doc.length)) :=
        readBytes_append _ _ _ (length_encTids doc)
      have hfail : readBytes (4 * doc.length) ((encVals doc).take (k - 8 - 4 * doc.length)) =
          none := by
        apply readBytes_none
        simp only [List.length_take, length_encVals]
        omega
      simp only [mmArrDoc, htake, htake2, readArrI32_two, wrap32_natCast _ hL,
        readArrI32_natCast, readArrF32_natCast, htids, i32ListOfBytes_encTids, hfail]

/-! ## MmReaderArray: full passes over well-formed and truncated files -/

theorem iterDocs_mmArr_ok (docs : List (Int × Doc))
    (hd : ∀ p ∈ docs, p.2.length < 2 ^ 31) :
    ∀ rest : Bytes,
      iterDocs mmArrDoc docs.length (encDocsC docs ++ rest) = .ok (outsC docs) := by
  induction docs with
  | nil => intro rest; simp [iterDocs, outsC]
  | cons p ps ih =>
    intro rest
    have hp : p.2.length < 2 ^ 31 := hd p (by simp)
    have harr : encDocsC (p :: ps) ++ rest = encDocC p.1 p.2 ++ (encDocsC ps ++ rest) := by
      simp [encDocsC]
    have ihr := ih (fun q hq => hd q (by simp [hq])) rest
    simp only [List.length_cons, iterDocs, harr, mmArrDoc_enc p.1 p.2 _ hp, ihr,
      outsC, List.map_cons]

theorem iterDocs_mmArr_trunc (docs : List (Int × Doc))
    (hd : ∀ p ∈ docs, p.2.length < 2 ^ 31) :
    ∀ k : Nat, k < (encDocsC docs).length →
      ∃ m, iterDocs mmArrDoc docs.length ((encDocsC docs).take k) =
        .err ((outsC docs).take m) := by
  induction docs with
  | nil =>
    intro k hk
    simp [encDocsC] at hk
  | cons p ps ih =>
    intro k hk
    have hp : p.2.length < 2 ^ 31 := hd p (by simp)
    have hsplit : encDocsC (p :: ps) = encDocC p.1 p.2 ++ encDocsC ps := rfl
    rw [hsplit, List.length_append] at hk
    by_cases hcase : k < (encDocC p.1 p.2).length
    · refine ⟨0, ?_⟩
      have htake : (encDocsC (p :: ps)).take k = (encDocC p.1 p.2).take k := by
        rw [hsplit, List.take_append_eq_append_take,
          Nat.sub_eq_zero_of_le (by omega), List.take_zero, List.append_nil]
      have hfail := mmArrDoc_trunc p.1 p.2 k hp hcase
      simp only [List.length_cons, iterDocs, htake, hfail, List.take_zero]
    · obtain ⟨m, hm⟩ := ih (fun q hq => hd q (by simp [hq])) (k - (encDocC p.1 p.2).length)
        (by omega)
      refine ⟨m + 1, ?_⟩
      have htake : (encDocsC (p :: ps)).take k =
          encDocC p.1 p.2 ++ (encDocsC ps).take (k - (encDocC p.1 p.2).length) := by
        rw [hsplit, List.take_append_eq_append_take,
          List.take_of_length_le (by omega : (encDocC p.1 p.2).length ≤ k)]
      simp only [List.length_cons, iterDocs, htake, mmArrDoc_enc p.1 p.2 _ hp, hm,
        outsC, List.map_cons, List.take_succ_cons]

theorem encHeaderBytes_assoc (st : Stats) (rest : Bytes) :
    encHeaderBytes st ++ rest =
      i32Bytes st.numDocs ++ (i32Bytes st.numTerms ++ (i32Bytes st.numNnz ++ rest)) := by
  simp [encHeaderBytes]

theorem mmArrIter_encFileC (t : Bool) (st : Stats) (docs : List (Int × Doc))
    (hd : ∀ p ∈ docs, p.2.length < 2 ^ 31)
    (hn : st.numDocs = (docs.length : Int)) (hlen : docs.length < 2 ^ 31) :
    mmArrIter t (encFileC st docs) = .ok (outsC docs) := by
  have hwrap : wrap32 st.numDocs = (docs.length : Int) := by
    rw [hn]
    exact wrap32_natCast _ hlen
  have hbody := iterDocs_mmArr_ok docs hd []
  rw [List.append_nil] at hbody
  simp only [mmArrIter, encFileC, encHeaderBytes_assoc, readArrI32_three, hwrap,
    Int.toNat_natCast, hbody]

theorem mmArrIter_trunc (t : Bool) (st : Stats) (docs : List (Int × Doc))
    (hd : ∀ p ∈ docs, p.2.length < 2 ^ 31)
    (hn : st.numDocs = (docs.length : Int)) (hlen : docs.length < 2 ^ 31)
    (k : Nat) (hk : k < (encFileC st docs).length) :
    ∃ m, mmArrIter t ((encFileC st docs).take k) = .err ((outsC docs).take m) := by
  have hwrap : wrap32 st.numDocs = (docs.length : Int) := by
    rw [hn]
    exact wrap32_natCast _ hlen
  rw [encFileC, List.length_append, length_encHeaderBytes] at hk
  by_cases h12 : k < 12
  · refine ⟨0, ?_⟩
    have hshort : ((encFileC st docs).take k).length < 12 := by
      simp only [List.length_take]
      omega
    simp only [mmArrIter, readArrI32_three_none _ hshort, List.take_zero]
  · have htake : (encFileC st docs).take k =
        encHeaderBytes st ++ (encDocsC docs).take (k - 12) := by
      rw [encFileC, List.take_append_eq_append_take, length_encHeaderBytes,
        List.take_of_length_le (by rw [length_encHeaderBytes]; omega)]
    obtain ⟨m, hm⟩ := iterDocs_mmArr_trunc docs hd (k - 12) (by omega)
    refine ⟨m, ?_⟩
    simp only [htake, mmArrIter, encHeaderBytes_assoc, readArrI32_three, hwrap,
      Int.toNat_natCast, hm]

/-! ## Writer lemmas -/

/-- An entry of the spec's data model: a non-negative `i32` term id and an
f32 weight pattern. -/
def ValidEntry (e : Entry) : Prop := 0 ≤ e.1 ∧ e.1 < 2 ^ 31 ∧ e.2 < 2 ^ 32

/-- A document whose sub-header length and entries fit the format. -/
def ValidDoc (d : Doc) : Prop := d.length < 2 ^ 31 ∧ ∀ e ∈ d, ValidEntry e

/-- Header statistics representable in the `'i'` slots. -/
def ValidStats (st : Stats) : Prop :=
  -2 ^ 31 ≤ st.numDocs ∧ st.numDocs < 2 ^ 31 ∧
  -2 ^ 31 ≤ st.numTerms ∧ st.numTerms < 2 ^ 31 ∧
  -2 ^ 31 ≤ st.numNnz ∧ st.numNnz < 2 ^ 31

instance (e : Entry) : Decidable (ValidEntry e) := by
  unfold ValidEntry
  infer_instance

instance (d : Doc) : Decidable (ValidDoc d) := by
  unfold ValidDoc
  infer_instance

instance (st : Stats) : Decidable (ValidStats st) := by
  unfold ValidStats
  infer_instance

theorem encInt32_of_range {n : Int} (h1 : -2 ^ 31 ≤ n) (h2 : n < 2 ^ 31) :
    encInt32 n = some (i32Bytes n) := by
  rw [encInt32, if_pos ((inI32Range_iff n).mpr ⟨h1, h2⟩)]

theorem encI32List_tids (d : Doc) (hv : ∀ e ∈ d, ValidEntry e) :
    encI32List (d.map (·.1)) = some (encTids d) := by
  induction d with
  | nil => rfl
  | cons e es ih =>
    obtain ⟨ha, hb, hc⟩ := hv e (by simp)
    have hr := ih (fun x hx => hv x (by simp [hx]))
    simp only [List.map_cons, encI32List,
      encInt32_of_range (by omega : -2 ^ 31 ≤ e.1) hb, hr, encTids]

theorem encF32List_vals (d : Doc) : encF32List (d.map (·.2)) = encVals d := by
  induction d with
  | nil => rfl
  | cons e es ih => simp only [List.map_cons, encF32List, ih, encVals]

theorem saveDocTr_ok (docid : Nat) (d : Doc) (hid : docid < 2 ^ 31)
    (hv : ValidDoc d) :
    saveDocTr docid d =
      ([.wr (i32Bytes (docid : Int) ++ i32Bytes (d.length : Int)),
        .wr (encTids d), .wr (encVals d)], true) := by
  have h1 : encInt32 (docid : Int) = some (i32Bytes (docid : Int)) :=
    encInt32_of_range (by omega) (by exact_mod_cast hid)
  have h2 : encInt32 (d.length : Int) = some (i32Bytes (d.length : Int)) :=
    encInt32_of_range (by omega) (by exact_mod_cast hv.1)
  simp only [saveDocTr, h1, h2, encI32List_tids d hv.2, encF32List_vals]

/-- Columnar records as `save_corpus` lays them out: positional doc ids
starting at `docid`. -/
def encDocsPos (docid : Nat) : List Doc → Bytes
  | [] => []
  | d :: ds => encDocC (docid : Int) d ++ encDocsPos (docid + 1) ds

theorem saveDocsTr_ok (docs : List Doc) :
    ∀ docid : Nat, (∀ d ∈ docs, ValidDoc d) → docid + docs.length ≤ 2 ^ 31 →
      (saveDocsTr docid docs).2 = true ∧
        writtenBytes (saveDocsTr docid docs).1 = encDocsPos docid docs := by
  induction docs with
  | nil => intro docid _ _; exact ⟨rfl, rfl⟩
  | cons d ds ih =>
    intro docid hv hbound
    have hd : ValidDoc d := hv d (by simp)
    have hdoc := saveDocTr_ok docid d (by simp at hbound; omega) hd
    obtain ⟨ihok, ihbytes⟩ := ih (docid + 1) (fun x hx => hv x (by simp [hx]))
      (by simp at hbound ⊢; omega)
    cases hrec : saveDocsTr (docid + 1) ds with
    | mk tr2 ok =>
      rw [hrec] at ihok ihbytes
      simp only at ihok ihbytes
      subst ihok
      refine ⟨?_, ?_⟩
      · simp only [saveDocsTr, hdoc, hrec]
      · simp only [saveDocsTr, hdoc, hrec, writtenBytes, encDocsPos, encDocC]
        simp [ihbytes]

theorem writtenBytes_append (tr1 tr2 : List Ev) :
    writtenBytes (tr1 ++ tr2) = writtenBytes tr1 ++ writtenBytes tr2 := by
  induction tr1 with
  | nil => rfl
  | cons e tr ih =>
    cases e <;> simp [writtenBytes, ih]

theorem saveCorpusTr_ok (st : Stats) (docs : List Doc) (hst : ValidStats st)
    (hv : ∀ d ∈ docs, ValidDoc d) (hbound : docs.length ≤ 2 ^ 31) :
    (saveCorpusTr st docs).2 = true ∧
      writtenBytes (saveCorpusTr st docs).1 =
        encHeaderBytes st ++ encDocsPos 0 docs := by
  obtain ⟨h1, h2, h3, h4, h5, h6⟩ := hst
  have hh : encHeader st = some (encHeaderBytes st) := by
    simp only [encHeader, encInt32_of_range h1 h2, encInt32_of_range h3 h4,
      encInt32_of_range h5 h6, encHeaderBytes]
  obtain ⟨hok, hbytes⟩ := saveDocsTr_ok docs 0 hv (by omega)
  cases hrec : saveDocsTr 0 docs with
  | mk tr ok =>
    rw [hrec] at hok hbytes
    simp only at hok hbytes
    subst hok
    constructor
    · simp only [saveCorpusTr, hh, hrec]
    · simp only [saveCorpusTr, hh, hrec]
      simp [writtenBytes_append, writtenBytes, hbytes]

theorem saveBytes_eq (st : Stats) (docs : List Doc) (hst : ValidStats st)
    (hv : ∀ d ∈ docs, ValidDoc d) (hbound : docs.length ≤ 2 ^ 31) :
    saveBytes st docs = some (encHeaderBytes st ++ encDocsPos 0 docs) := by
  obtain ⟨hok, hbytes⟩ := saveCorpusTr_ok st docs hst hv hbound
  rw [saveBytes]
  cases hrec : saveCorpusTr st docs with
  | mk tr ok =>
    rw [hrec] at hok hbytes
    simp only at hok hbytes
    subst hok
    simp only [hbytes]

/-! ## Decoding what save_corpus wrote -/

theorem iterDocs_encDocsPos (docs : List Doc) :
    ∀ (docid : Nat) (rest : Bytes), (∀ d ∈ docs, ValidDoc d) →
      iterDocs mmArrDoc docs.length (encDocsPos docid docs ++ rest) =
        .ok (docs.map wrapEntries) := by
  induction docs with
  | nil => intro docid rest _; simp [iterDocs]
  | cons d ds ih =>
    intro docid rest hv
    have hd : ValidDoc d := hv d (by simp)
    have harr : encDocsPos docid (d :: ds) ++ rest =
        encDocC (docid : Int) d ++ (encDocsPos (docid + 1) ds ++ rest) := by
      simp [encDocsPos]
    have ihr := ih (docid + 1) rest (fun x hx => hv x (by simp [hx]))
    simp only [List.length_cons, iterDocs, harr, mmArrDoc_enc _ d _ hd.1, ihr,
      List.map_cons]

theorem wrapEntries_eq_self {d : Doc} (hv : ∀ e ∈ d, ValidEntry e) :
    wrapEntries d = d := by
  rw [wrapEntries]
  conv_rhs => rw [← List.map_id d]
  apply List.map_congr_left
  intro e he
  obtain ⟨h1, h2, h3⟩ := hv e he
  rw [wrap32_eq_self (by omega) h2, Nat.mod_eq_of_lt h3, id]

theorem map_wrapEntries_eq_self {docs : List Doc} (hv : ∀ d ∈ docs, ValidDoc d) :
    docs.map wrapEntries = docs := by
  conv_rhs => rw [← List.map_id docs]
  apply List.map_congr_left
  intro d hd
  rw [wrapEntries_eq_self (hv d hd).2, id]

theorem save_roundtrip (st : Stats) (docs : List Doc)
    (hst : ValidStats st) (hv : ∀ d ∈ docs, ValidDoc d)
    (hn : st.numDocs = (docs.length : Int)) (hlen : docs.length < 2 ^ 31) :
    Option.map (mmArrIter true) (saveBytes st docs) = some (.ok docs) := by
  rw [saveBytes_eq st docs hst hv (by omega), Option.map_some']
  have hwrap : wrap32 st.numDocs = (docs.length : Int) := by
    rw [hn]
    exact wrap32_natCast _ hlen
  have hbody := iterDocs_encDocsPos docs 0 [] hv
  rw [List.append_nil] at hbody
  rw [show mmArrIter true (encHeaderBytes st ++ encDocsPos 0 docs) =
      iterDocs mmArrDoc docs.length (encDocsPos 0 docs) from by
    simp only [mmArrIter, encHeaderBytes_assoc, readArrI32_three, hwrap, Int.toNat_natCast]]
  rw [hbody, map_wrapEntries_eq_self hv]

/-! ## Close-on-exit behaviour of save_corpus -/

theorem cl_not_mem_saveDocTr (docid : Nat) (d : Doc) :
    Ev.cl ∉ (saveDocTr docid d).1 := by
  unfold saveDocTr
  cases encInt32 (docid : Int) with
  | none => simp
  | some a =>
    cases encInt32 (d.length : Int) with
    | none => simp
    | some b =>
      cases encI32List (d.map (·.1)) with
      | none => simp
      | some tids => simp

theorem cl_not_mem_saveDocsTr (docs : List Doc) :
    ∀ docid : Nat, Ev.cl ∉ (saveDocsTr docid docs).1 := by
  induction docs with
  | nil => intro docid; simp [saveDocsTr]
  | cons d ds ih =>
    intro docid
    unfold saveDocsTr
    cases hdoc : saveDocTr docid d with
    | mk tr ok =>
      have htr : Ev.cl ∉ tr := by
        have := cl_not_mem_saveDocTr docid d
        rw [hdoc] at this
        exact this
      cases ok with
      | false => simpa using htr
      | true =>
        cases hrec : saveDocsTr (docid + 1) ds with
        | mk tr2 ok2 =>
          have htr2 : Ev.cl ∉ tr2 := by
            have := ih (docid + 1)
            rw [hrec] at this
            exact this
          simp only [List.mem_append]
          intro hc
          rcases hc with hc | hc
          · exact htr hc
          · exact htr2 hc

theorem saveCorpusTr_cl_iff (st : Stats) (docs : List Doc) :
    Ev.cl ∈ (saveCorpusTr st docs).1 ↔ (saveCorpusTr st docs).2 = true := by
  unfold saveCorpusTr
  cases encHeader st with
  | none => simp
  | some hdr =>
    cases hrec : saveDocsTr 0 docs with
    | mk tr ok =>
      have htr : Ev.cl ∉ tr := by
        have := cl_not_mem_saveDocsTr docs 0
        rw [hrec] at this
        exact this
      cases ok with
      | false =>
        simp only [List.mem_append, List.mem_cons, List.mem_singleton]
        constructor
        · intro hc
          rcases hc with hc | hc
          · rcases hc with hc | hc | hc
            · exact absurd hc (by simp)
            · exact absurd hc (by simp)
            · exact absurd hc (by simp at hc)
          · exact absurd hc htr
        · intro hc
          exact absurd hc (by simp)
      | true => simp

/-! ## Claim theorems -/

/-- Claim C1 (code bug): the claim says that for a record with sub-header id
`D`, every entry decoded with `transposed = false` has `D` as its first
component (transposition symmetry).  The code violates this: the swap
`termid, docid = docid, termid` inside the entry loop overwrites `docid`,
so the second entry of the record below carries the first entry's term id
`1` instead of the sub-header id `5`.  Decoding the same file with
`transposed = true` yields the stored entries, whose per-entry swap would
be `[(5, _), (5, _)]`, not what `transposed = false` produces. -/
theorem claim_C1_transposed_docid_overwritten :
    mm1Iter false (encFileI ⟨1, 3, 2⟩ [(5, [(1, 17), (2, 33)])]) =
      .ok [[(5, 17), (1, 33)]] ∧
    mm1Iter false (encFileI ⟨1, 3, 2⟩ [(5, [(1, 17), (2, 33)])]) ≠
      .ok [[(5, 17), (5, 33)]] ∧
    mm1Iter true (encFileI ⟨1, 3, 2⟩ [(5, [(1, 17), (2, 33)])]) =
      .ok [[(1, 17), (2, 33)]] := by decide

/-- Claim C2 (code bug): the claim says the columnar decode applies the
transposition swap to each entry when the reader was constructed with
`transposed = false`.  `MmReaderArray.__iter__` never consults the flag:
for a columnar record with sub-header id `7` and entry `(3, 9.0f)`, a
`transposed = false` pass yields the entry unchanged — the first component
is the stored term id `3`, with no swap involving the sub-header id `7`. -/
theorem claim_C2_columnar_ignores_transposed :
    mmArrIter false (encFileC ⟨1, 3, 1⟩ [(7, [(3, 9)])]) = .ok [[(3, 9)]] ∧
    mmArrIter false (encFileC ⟨1, 3, 1⟩ [(7, [(3, 9)])]) ≠ .ok [[(7, 9)]] := by
  decide

/-- Claim C3 (counterexample): the claim quantifies over *any* header
statistics.  With `num_docs = 0` in the header and one document supplied,
`save_corpus` writes the header and the record, but iterating the result
yields zero documents, not the one that was written. -/
theorem claim_C3_any_stats_fails :
    Option.map (mmArrIter true) (saveBytes ⟨0, 3, 1⟩ [[(1, 0)]]) = some (.ok []) ∧
    Option.map (mmArrIter true) (saveBytes ⟨0, 3, 1⟩ [[(1, 0)]]) ≠
      some (.ok [[(1, 0)]]) := by decide

/-- Claim C3 (amended): for header statistics whose `num_docs` equals the
number of documents supplied (and all values in their i32/f32 ranges),
writing with the columnar writer and iterating the resulting file yields
exactly the documents written, in order, with the same entries. -/
theorem claim_C3_roundtrip (st : Stats) (docs : List Doc)
    (hst : ValidStats st) (hv : ∀ d ∈ docs, ValidDoc d)
    (hn : st.numDocs = (docs.length : Int)) (hlen : docs.length < 2 ^ 31) :
    Option.map (mmArrIter true) (saveBytes st docs) = some (.ok docs) :=
  save_roundtrip st docs hst hv hn hlen

theorem claim_C3_roundtrip_witness :
    (ValidStats ⟨2, 3, 3⟩ ∧
      (∀ d ∈ ([[(1, 17)], [(0, 5), (2, 8)]] : List Doc), ValidDoc d) ∧
      (⟨2, 3, 3⟩ : Stats).numDocs =
        (([[(1, 17)], [(0, 5), (2, 8)]] : List Doc).length : Int) ∧
      ([[(1, 17)], [(0, 5), (2, 8)]] : List Doc).length < 2 ^ 31) ∧
    Option.map (mmArrIter true) (saveBytes ⟨2, 3, 3⟩ [[(1, 17)], [(0, 5), (2, 8)]]) =
      some (.ok [[(1, 17)], [(0, 5), (2, 8)]]) :=
  ⟨⟨by decide, by decide, by decide, by decide⟩,
    claim_C3_roundtrip ⟨2, 3, 3⟩ [[(1, 17)], [(0, 5), (2, 8)]]
      (by decide) (by decide) (by decide) (by decide)⟩

/-- Claim C4: a full pass of any reader over a well-formed file yields
exactly `header.num_docs` documents, whatever the documents' contents and
whatever the sub-headers' doc ids: the three readers return `ok` outputs
whose length equals the header's `num_docs`. -/
theorem claim_C4_count_invariant (t : Bool) (st : Stats) (docs : List (Int × Doc))
    (hd : ∀ p ∈ docs, p.2.length < 2 ^ 31)
    (hn : st.numDocs = (docs.length : Int)) (hlen : docs.length < 2 ^ 31) :
    mm1Iter t (encFileI st docs) = .ok (outsI t docs) ∧
    mm2Iter t (encFileI st docs) = .ok (outsI t docs) ∧
    mmArrIter t (encFileC st docs) = .ok (outsC docs) ∧
    ((outsI t docs).length : Int) = st.numDocs ∧
    ((outsC docs).length : Int) = st.numDocs := by
  refine ⟨mm1Iter_encFileI t st docs hd hn hlen, ?_,
    mmArrIter_encFileC t st docs hd hn hlen, ?_, ?_⟩
  · rw [mm2Iter_eq_mm1Iter]
    exact mm1Iter_encFileI t st docs hd hn hlen
  · simp [outsI, hn]
  · simp [outsC, hn]

theorem claim_C4_count_invariant_witness :
    ((∀ p ∈ ([(7, [(1, 2)]), (-3, [(0, 1), (2, 4)])] : List (Int × Doc)),
        p.2.length < 2 ^ 31) ∧
      (⟨2, 3, 3⟩ : Stats).numDocs =
        (([(7, [(1, 2)]), (-3, [(0, 1), (2, 4)])] : List (Int × Doc)).length : Int) ∧
      ([(7, [(1, 2)]), (-3, [(0, 1), (2, 4)])] : List (Int × Doc)).length < 2 ^ 31) ∧
    (mm1Iter false (encFileI ⟨2, 3, 3⟩ [(7, [(1, 2)]), (-3, [(0, 1), (2, 4)])]) =
        .ok (outsI false [(7, [(1, 2)]), (-3, [(0, 1), (2, 4)])]) ∧
      mm2Iter false (encFileI ⟨2, 3, 3⟩ [(7, [(1, 2)]), (-3, [(0, 1), (2, 4)])]) =
        .ok (outsI false [(7, [(1, 2)]), (-3, [(0, 1), (2, 4)])]) ∧
      mmArrIter false (encFileC ⟨2, 3, 3⟩ [(7, [(1, 2)]), (-3, [(0, 1), (2, 4)])]) =
        .ok (outsC [(7, [(1, 2)]), (-3, [(0, 1), (2, 4)])]) ∧
      ((outsI false [(7, [(1, 2)]), (-3, [(0, 1), (2, 4)])]).length : Int) =
        (⟨2, 3, 3⟩ : Stats).numDocs ∧
      ((outsC [(7, [(1, 2)]), (-3, [(0, 1), (2, 4)])]).length : Int) =
        (⟨2, 3, 3⟩ : Stats).numDocs) :=
  ⟨⟨by decide, by decide, by decide⟩,
    claim_C4_count_invariant false ⟨2, 3, 3⟩ [(7, [(1, 2)]), (-3, [(0, 1), (2, 4)])]
      (by decide) (by decide) (by decide)⟩

/-- Claim C5: for every byte stream and every value of the `transposed`
flag, the per-entry reader `MmReader1` and the bulk-read reader `MmReader2`
produce identical passes — in particular on every well-formed interleaved
file.  The one-pair-at-a-time decode and the single bulk read of
`doc_length` pair records are semantically equivalent. -/
theorem claim_C5_reader_equivalence : ∀ (t : Bool) (s : Bytes),
    mm1Iter t s = mm2Iter t s :=
  fun t s => (mm2Iter_eq_mm1Iter t s).symm

/-- Claim C6: truncating a well-formed file (interleaved or columnar) at
any byte offset strictly before its declared end makes the pass fail
(`err`), after yielding only a prefix of the complete documents — never a
short or partial document. -/
theorem claim_C6_truncation (t : Bool) (st : Stats) (docs : List (Int × Doc))
    (k : Nat) (hd : ∀ p ∈ docs, p.2.length < 2 ^ 31)
    (hn : st.numDocs = (docs.length : Int)) (hlen : docs.length < 2 ^ 31) :
    (k < (encFileI st docs).length →
      ∃ m, mm1Iter t ((encFileI st docs).take k) = .err ((outsI t docs).take m)) ∧
    (k < (encFileC st docs).length →
      ∃ m, mmArrIter t ((encFileC st docs).take k) = .err ((outsC docs).take m)) :=
  ⟨fun hk => mm1Iter_trunc t st docs hd hn hlen k hk,
    fun hk => mmArrIter_trunc t st docs hd hn hlen k hk⟩

theorem claim_C6_truncation_witness :
    ((∀ p ∈ ([((0:Int), [((1:Int), (2:Nat))])] : List (Int × Doc)), p.2.length < 2 ^ 31) ∧
      (⟨1, 5, 1⟩ : Stats).numDocs =
        (([((0:Int), [((1:Int), (2:Nat))])] : List (Int × Doc)).length : Int) ∧
      ([((0:Int), [((1:Int), (2:Nat))])] : List (Int × Doc)).length < 2 ^ 31) ∧
    ((15 < (encFileI ⟨1, 5, 1⟩ [(0, [(1, 2)])]).length →
      ∃ m, mm1Iter true ((encFileI ⟨1, 5, 1⟩ [(0, [(1, 2)])]).take 15) =
        .err ((outsI true [(0, [(1, 2)])]).take m)) ∧
    (15 < (encFileC ⟨1, 5, 1⟩ [(0, [(1, 2)])]).length →
      ∃ m, mmArrIter true ((encFileC ⟨1, 5, 1⟩ [(0, [(1, 2)])]).take 15) =
        .err ((outsC [(0, [(1, 2)])]).take m))) :=
  ⟨⟨by decide, by decide, by decide⟩,
    claim_C6_truncation true ⟨1, 5, 1⟩ [(0, [(1, 2)])] 15
      (by decide) (by decide) (by decide)⟩

/-- Claim C7 (counterexample): the claim says `save_corpus` closes the
destination on every exit path.  A document whose term id `2^31` overflows
the `array('i')` slot makes the call raise after the stream was opened and
the header and sub-header written; `f.close()` at the end of the function
body is never reached, so no close event appears in the trace. -/
theorem claim_C7_not_closed_on_error :
    (saveCorpusTr ⟨1, 1, 1⟩ [[(2147483648, 0)]]).2 = false ∧
    Ev.cl ∉ (saveCorpusTr ⟨1, 1, 1⟩ [[(2147483648, 0)]]).1 := by decide

/-- Claim C7 (amended): `save_corpus` closes the destination stream exactly
when it completes without error; on an error exit (for example a term id
outside the i32 range) the stream is left unclosed. -/
theorem claim_C7_close_iff_success : ∀ (st : Stats) (docs : List Doc),
    Ev.cl ∈ (saveCorpusTr st docs).1 ↔ (saveCorpusTr st docs).2 = true :=
  saveCorpusTr_cl_iff

/-- Claim C8 (counterexample): the claim says a mismatch between the
declared `num_docs` and the documents actually supplied surfaces as an
error.  With `num_docs = 2` and a single document, `save_corpus` completes
without error and closes the stream normally. -/
theorem claim_C8_mismatch_silent :
    (saveCorpusTr ⟨2, 3, 1⟩ [[(1, 0)]]).2 = true ∧
    Ev.cl ∈ (saveCorpusTr ⟨2, 3, 1⟩ [[(1, 0)]]).1 ∧
    (⟨2, 3, 1⟩ : Stats).numDocs ≠ (([[(1, 0)]] : List Doc).length : Int) := by decide

/-- Claim C8 (amended): the writer performs no consistency check at all:
`save_corpus` completes without error even when the declared `num_docs`
differs from the number of documents supplied, provided every written
value is encodable. -/
theorem claim_C8_no_check (st : Stats) (docs : List Doc) (hst : ValidStats st)
    (hv : ∀ d ∈ docs, ValidDoc d) (hbound : docs.length ≤ 2 ^ 31)
    (hmis : st.numDocs ≠ (docs.length : Int)) :
    (saveCorpusTr st docs).2 = true :=
  (saveCorpusTr_ok st docs hst hv hbound).1

theorem claim_C8_no_check_witness :
    (ValidStats ⟨2, 3, 1⟩ ∧ (∀ d ∈ ([[(1, 0)]] : List Doc), ValidDoc d) ∧
      ([[(1, 0)]] : List Doc).length ≤ 2 ^ 31 ∧
      (⟨2, 3, 1⟩ : Stats).numDocs ≠ (([[(1, 0)]] : List Doc).length : Int)) ∧
    (saveCorpusTr ⟨2, 3, 1⟩ [[(1, 0)]]).2 = true :=
  ⟨⟨by decide, by decide, by decide, by decide⟩,
    claim_C8_no_check ⟨2, 3, 1⟩ [[(1, 0)]] (by decide) (by decide) (by decide) (by decide)⟩

/-- Claim C9 (code bug): the claim (and the readers' own docstrings, which
promise `(int, list of (int, number))` pairs) says each yielded item
carries the decoded doc id together with the entries.  Every reader yields
only the bare entries list: for a one-document file with sub-header id `5`
and entry `(3, 7.0f)`, the single yielded item is `[(3, 7)]` — a list of
entries with no doc id component. -/
theorem claim_C9_no_docid_yielded :
    mm1Iter true (encFileI ⟨1, 4, 1⟩ [(5, [(3, 7)])]) = .ok [[(3, 7)]] ∧
    mmArrIter true (encFileC ⟨1, 4, 1⟩ [(5, [(3, 7)])]) = .ok [[(3, 7)]] := by decide

/-- Claim C10: a record whose sub-header declares `doc_length = 0` decodes
to an empty entries list, consumes exactly its 8 sub-header bytes (no
entry payload), and does not abort the pass: a zero-length record is valid
at any position of a well-formed file, in both formats. -/
theorem claim_C10_zero_length (t : Bool) (id : Int) (rest : Bytes) (st : Stats)
    (pre post : List (Int × Doc))
    (hpre : ∀ p ∈ pre, p.2.length < 2 ^ 31) (hpost : ∀ p ∈ post, p.2.length < 2 ^ 31)
    (hn : st.numDocs = ((pre ++ (id, []) :: post).length : Int))
    (hlen : (pre ++ (id, []) :: post).length < 2 ^ 31) :
    mm1Doc t (encDocI id [] ++ rest) = some ([], rest) ∧
    mmArrDoc (encDocC id [] ++ rest) = some ([], rest) ∧
    (encDocI id []).length = 8 ∧ (encDocC id []).length = 8 ∧
    mm1Iter t (encFileI st (pre ++ (id, []) :: post)) =
      .ok (outsI t pre ++ [] :: outsI t post) ∧
    mmArrIter t (encFileC st (pre ++ (id, []) :: post)) =
      .ok (outsC pre ++ [] :: outsC post) := by
  have hall : ∀ p ∈ pre ++ (id, []) :: post, p.2.length < 2 ^ 31 := by
    intro p hp
    rcases List.mem_append.mp hp with h | h
    · exact hpre p h
    · rcases List.mem_cons.mp h with h | h
      · subst h
        norm_num
      · exact hpost p h
  have hout : outI t id ([] : Doc) = [] := rfl
  have h1 := mm1Doc_enc t id [] rest (by norm_num)
  rw [hout] at h1
  have h2 : wrapEntries ([] : Doc) = [] := rfl
  have h2' := mmArrDoc_enc id [] rest (by norm_num)
  rw [h2] at h2'
  have h5 := mm1Iter_encFileI t st (pre ++ (id, []) :: post) hall hn hlen
  have h6 := mmArrIter_encFileC t st (pre ++ (id, []) :: post) hall hn hlen
  rw [show outsI t (pre ++ (id, []) :: post) = outsI t pre ++ [] :: outsI t post from by
    simp [outsI, List.map_append, hout]] at h5
  rw [show outsC (pre ++ (id, []) :: post) = outsC pre ++ [] :: outsC post from by
    simp [outsC, List.map_append, wrapEntries]] at h6
  exact ⟨h1, h2', by simp [length_encDocI], by simp [length_encDocC], h5, h6⟩

theorem claim_C10_zero_length_witness :
    ((∀ p ∈ ([((0:Int), [((1:Int), (9:Nat))])] : List (Int × Doc)), p.2.length < 2 ^ 31) ∧
      (∀ p ∈ ([((2:Int), [((0:Int), (4:Nat))])] : List (Int × Doc)), p.2.length < 2 ^ 31) ∧
      (⟨3, 3, 2⟩ : Stats).numDocs =
        ((([((0:Int), [((1:Int), (9:Nat))])] : List (Int × Doc)) ++
          ((7:Int), ([] : Doc)) :: [((2:Int), [((0:Int), (4:Nat))])]).length : Int) ∧
      (([((0:Int), [((1:Int), (9:Nat))])] : List (Int × Doc)) ++
          ((7:Int), ([] : Doc)) :: [((2:Int), [((0:Int), (4:Nat))])]).length < 2 ^ 31) ∧
    (mm1Doc true (encDocI 7 [] ++ [0, 1, 2]) = some ([], [0, 1, 2]) ∧
      mmArrDoc (encDocC 7 [] ++ [0, 1, 2]) = some ([], [0, 1, 2]) ∧
      (encDocI (7:Int) []).length = 8 ∧ (encDocC (7:Int) []).length = 8 ∧
      mm1Iter true (encFileI ⟨3, 3, 2⟩
          ([((0:Int), [((1:Int), (9:Nat))])] ++ ((7:Int), ([] : Doc)) ::
            [((2:Int), [((0:Int), (4:Nat))])])) =
        .ok (outsI true [((0:Int), [((1:Int), (9:Nat))])] ++
          [] :: outsI true [((2:Int), [((0:Int), (4:Nat))])]) ∧
      mmArrIter true (encFileC ⟨3, 3, 2⟩
          ([((0:Int), [((1:Int), (9:Nat))])] ++ ((7:Int), ([] : Doc)) ::
            [((2:Int), [((0:Int), (4:Nat))])])) =
        .ok (outsC [((0:Int), [((1:Int), (9:Nat))])] ++
          [] :: outsC [((2:Int), [((0:Int), (4:Nat))])])) :=
  ⟨⟨by decide, by decide, by decide, by decide⟩,
    claim_C10_zero_length true 7 [0, 1, 2] ⟨3, 3, 2⟩
      [((0:Int), [((1:Int), (9:Nat))])] [((2:Int), [((0:Int), (4:Nat))])]
      (by decide) (by decide) (by decide) (by decide)⟩

end MmBin
